import Mathlib

/-!
Verification development for the `lheutils` CLI layer.

The Python sources under `src/lheutils/cli/` are shallowly embedded here:

* events, init headers and weight tables become Lean structures; Python
  `dict`s (which preserve insertion order) become association lists;
* lazy generators over a finite stream become functions on `List`s, and a
  stream that can raise mid-iteration becomes a `List (Except ...)` of pulls;
* floats only ever get copied around by the code under study, never computed
  with, so numeric fields are modelled by `Int`;
* filesystem effects of `lhefix.fix_file` become an explicit trace of
  operations interpreted over a small filesystem state.
-/

/-! ## Data model (mirrors the pylhe objects used by the CLI code) -/

structure LHEParticle where
  id : Int
  status : Int
deriving DecidableEq

structure LHEEventInfo where
  weight : Int
  scale : Int
  pid : Int
  nparticles : Int
deriving DecidableEq

structure LHEEvent where
  eventinfo : LHEEventInfo
  particles : List LHEParticle
  weights : List (String × Int)
deriving DecidableEq

structure LHEWeightInfo where
  name : String
  id : String
  index : Int
deriving DecidableEq

structure LHEWeightGroup where
  name : String
  weights : List (String × LHEWeightInfo)
deriving DecidableEq

abbrev WeightTable := List (String × LHEWeightGroup)

structure LHEProcInfo where
  procId : Int
  xSection : Int
  error : Int
deriving DecidableEq

structure LHEInitInfo where
  beamA : Int
  beamB : Int
  energyA : Int
  energyB : Int
  PDFsetA : Int
  PDFsetB : Int
deriving DecidableEq

structure LHEInit where
  initInfo : LHEInitInfo
  procInfo : List LHEProcInfo
  weightgroup : WeightTable
deriving DecidableEq

/-- Serialized output of the writer (`LHEFile.write` / `LHEFile.tofile`):
the header block, one token per event, and the closing `</LesHouchesEvents>`
structure. -/
inductive LHEToken where
  | headerTok (i : LHEInit)
  | eventTok (e : LHEEvent)
  | closingTok
deriving DecidableEq

/-- Output produced by the pylhe writer for a header and a (finite) event
stream: header first, then the events in order, then the closing marker. -/
def writeLHE (init : LHEInit) (evs : List LHEEvent) : List LHEToken :=
  LHEToken.headerTok init :: evs.map LHEToken.eventTok ++ [LHEToken.closingTok]

/-- A concrete event used by witnesses and counterexamples. -/
def mkEvent (n : Int) : LHEEvent :=
  { eventinfo := { weight := n, scale := 0, pid := 0, nparticles := 0 }
    particles := []
    weights := [] }

/-! ## `lhesplit.split_lhe_file` (src/lheutils/cli/lhesplit.py, lines 48-71)

The inner `_generator` pulls up to `events_per_file` events with `next`,
setting the `exhausted` flag when `StopIteration` is hit; the `while not
exhausted` loop writes one output file per generator run.  On a finite
stream the generator run amounts to: if fewer than `K` events remain, the
chunk is the whole remainder and `exhausted` is set; otherwise the chunk is
the first `K` events and the flag is untouched (even when exactly `K`
remain, since `range(K)` finishes before the failing `next`). -/

/-- One run of `lhesplit._generator`: returns the chunk yielded, the events
left in the source iterator, and the value of the `exhausted` flag after the
run. -/
def lhesplit_generator (K : Nat) (evs : List LHEEvent) :
    List LHEEvent × List LHEEvent × Bool :=
  if evs.length < K then (evs, [], true) else (evs.take K, evs.drop K, false)

/-- The `while not exhausted` loop of `split_lhe_file`, with explicit fuel.
The source loops forever when `K = 0` (Python `range(0)` yields nothing and
the flag is never set); the fuel only serves to make the function structural,
and `split_lhe_file` below supplies enough fuel for every positive `K`. -/
def split_loop (fuel : Nat) (K : Nat) (evs : List LHEEvent) :
    List (List LHEEvent) :=
  match fuel with
  | 0 => []
  | fuel' + 1 =>
    match lhesplit_generator K evs with
    | (chunk, rest, exhausted) =>
      if exhausted then [chunk] else chunk :: split_loop fuel' K rest

/-- `split_lhe_file` restricted to what it writes: the list of event chunks,
one per output file, in the order the files are written. -/
def split_lhe_file (K : Nat) (evs : List LHEEvent) : List (List LHEEvent) :=
  split_loop (evs.length + 1) K evs

theorem split_loop_succ_lt (K f : Nat) (evs : List LHEEvent)
    (h : evs.length < K) : split_loop (f + 1) K evs = [evs] := by
  simp [split_loop, lhesplit_generator, h]

theorem split_loop_succ_ge (K f : Nat) (evs : List LHEEvent)
    (h : ¬ evs.length < K) :
    split_loop (f + 1) K evs = evs.take K :: split_loop f K (evs.drop K) := by
  simp [split_loop, lhesplit_generator, h]

theorem split_loop_length (K : Nat) (hK : 0 < K) :
    ∀ (fuel : Nat) (evs : List LHEEvent), evs.length < fuel →
      (split_loop fuel K evs).length = evs.length / K + 1 := by
  intro fuel
  induction fuel with
  | zero => intro evs h; omega
  | succ f ih =>
    intro evs h
    by_cases hlt : evs.length < K
    · simp [split_loop_succ_lt K f evs hlt, Nat.div_eq_of_lt hlt]
    · have hK2 : K ≤ evs.length := Nat.le_of_not_lt hlt
      have hdrop : (evs.drop K).length = evs.length - K := List.length_drop K evs
      have hrec : (evs.drop K).length < f := by omega
      rw [split_loop_succ_ge K f evs hlt, List.length_cons,
        ih (evs.drop K) hrec, hdrop, Nat.div_eq evs.length K]
      simp [hK, hK2]

theorem split_loop_flatten (K : Nat) (hK : 0 < K) :
    ∀ (fuel : Nat) (evs : List LHEEvent), evs.length < fuel →
      (split_loop fuel K evs).flatten = evs := by
  intro fuel
  induction fuel with
  | zero => intro evs h; omega
  | succ f ih =>
    intro evs h
    by_cases hlt : evs.length < K
    · simp [split_loop_succ_lt K f evs hlt]
    · have hK2 : K ≤ evs.length := Nat.le_of_not_lt hlt
      have hdrop : (evs.drop K).length = evs.length - K := List.length_drop K evs
      have hrec : (evs.drop K).length < f := by omega
      rw [split_loop_succ_ge K f evs hlt, List.flatten_cons,
        ih (evs.drop K) hrec, List.take_append_drop]

theorem split_lhe_file_length (K : Nat) (hK : 0 < K) (evs : List LHEEvent) :
    (split_lhe_file K evs).length = evs.length / K + 1 :=
  split_loop_length K hK (evs.length + 1) evs (Nat.lt_succ_self _)

theorem split_lhe_file_flat (K : Nat) (hK : 0 < K) (evs : List LHEEvent) :
    (split_lhe_file K evs).flatten = evs :=
  split_loop_flatten K hK (evs.length + 1) evs (Nat.lt_succ_self _)

/-- C1 counterexample: with N = 2 events and chunk size K = 2 the code
writes two files (the second one empty), while the claim's `ceil(N/K)`
equals 1.  The trailing empty chunk appears because the `exhausted` flag is
only set by a failing `next`, which for `K ∣ N` happens one chunk late. -/
theorem split_chunk_count_cex :
    split_lhe_file 2 [mkEvent 1, mkEvent 2] = [[mkEvent 1, mkEvent 2], []] ∧
      (2 + 2 - 1) / 2 = 1 := by
  constructor
  · rfl
  · rfl

/-- C1 (amended): for every positive chunk size `K`, `split_lhe_file` writes
exactly `⌊N/K⌋ + 1` chunks — `ceil(N/K)` when `K` does not divide `N`, and
one extra trailing empty chunk when `K` divides `N` (in particular exactly
one empty chunk when `N = 0`) — and the concatenation of the chunks in file
order reproduces the original events exactly, in order. -/
theorem split_lhe_file_count_join (K : Nat) (evs : List LHEEvent) (hK : 0 < K) :
    (split_lhe_file K evs).length = evs.length / K + 1 ∧
      (split_lhe_file K evs).flatten = evs :=
  ⟨split_lhe_file_length K hK evs, split_lhe_file_flat K hK evs⟩

/-- Witness for `split_lhe_file_count_join` at `K = 2`, three events. -/
theorem split_lhe_file_count_join_witness :
    (split_lhe_file 2 [mkEvent 1, mkEvent 2, mkEvent 3]).length = 3 / 2 + 1 ∧
      (split_lhe_file 2 [mkEvent 1, mkEvent 2, mkEvent 3]).flatten =
        [mkEvent 1, mkEvent 2, mkEvent 3] :=
  split_lhe_file_count_join 2 [mkEvent 1, mkEvent 2, mkEvent 3] (by decide)

/-- C10: for every chunk size of at least 1, each run of the chunk generator
either sets the `exhausted` flag that ends the loop or consumes at least one
event from the source iterator, and the loop terminates after writing
exactly `⌊N/K⌋ + 1` (finitely many) output files. -/
theorem split_loop_terminates (K : Nat) (evs : List LHEEvent) (hK : 0 < K) :
    ((lhesplit_generator K evs).2.2 = true ∨
      (lhesplit_generator K evs).2.1.length < evs.length) ∧
      (split_lhe_file K evs).length = evs.length / K + 1 := by
  refine ⟨?_, split_lhe_file_length K hK evs⟩
  by_cases hlt : evs.length < K
  · left; simp [lhesplit_generator, hlt]
  · right
    have hK2 : K ≤ evs.length := Nat.le_of_not_lt hlt
    simp only [lhesplit_generator, hlt, if_false]
    rw [List.length_drop]
    omega

/-- Witness for `split_loop_terminates` at `K = 1`, one event. -/
theorem split_loop_terminates_witness :
    ((lhesplit_generator 1 [mkEvent 4]).2.2 = true ∨
      (lhesplit_generator 1 [mkEvent 4]).2.1.length < 1) ∧
      (split_lhe_file 1 [mkEvent 4]).length = 1 / 1 + 1 :=
  split_loop_terminates 1 [mkEvent 4] (by decide)

/-! ## `lhefix.fix_file` (src/lheutils/cli/lhefix.py)

Two aspects are embedded.  The inner `_generator` (lines 56-74) iterates
`lhefile.events`, counting events, and catches any exception raised by the
iteration, returning normally after printing the count; a stream whose
decoding can fail mid-iteration is modelled as a list of pulls, each either
an event or a raised error.  The file-replace path (lines 83-110) is
embedded as a trace of filesystem operations interpreted over a small
filesystem state holding the destination file and the temporary file. -/

inductive DecodeError where
  | truncated
  | malformed
deriving DecidableEq

/-- One run of `lhefix._generator` over a stream of pulls: returns the
events yielded, the `event_count` reported by the final `print` calls, and
whether an exception from the source iteration was caught.  The count is
incremented on each successful pull before the yield, so a pull that raises
leaves the count at the number of events already yielded; the `except`
branch returns instead of re-raising. -/
def lhefix_generator : List (Except DecodeError LHEEvent) →
    List LHEEvent × Nat × Bool
  | [] => ([], 0, false)
  | .error _ :: _ => ([], 0, true)
  | .ok e :: rest =>
    match lhefix_generator rest with
    | (es, n, caught) => (e :: es, n + 1, caught)

/-- What the writer emits for `fix_file`: the full serialization of the
header together with whatever `_generator` yields. -/
def fix_file_output (init : LHEInit) (pulls : List (Except DecodeError LHEEvent)) :
    List LHEToken :=
  writeLHE init (lhefix_generator pulls).1

theorem lhefix_generator_clean (evs : List LHEEvent) :
    lhefix_generator (evs.map Except.ok) = (evs, evs.length, false) := by
  induction evs with
  | nil => rfl
  | cons e rest ih => simp [lhefix_generator, ih]

theorem lhefix_generator_truncated (evs : List LHEEvent) (err : DecodeError)
    (rest : List (Except DecodeError LHEEvent)) :
    lhefix_generator (evs.map Except.ok ++ Except.error err :: rest) =
      (evs, evs.length, true) := by
  induction evs with
  | nil => rfl
  | cons e tail ih => simp [lhefix_generator, ih]

/-- C3: when the event stream raises a decode error after yielding `M`
events, `lhefix._generator` catches it, yields exactly the first `M` events,
reports `M` as the processed-event count, and returns normally, so the
written output is the well-formed serialization of exactly those `M` events
followed by the closing structure. -/
theorem fix_file_truncation_recovery (init : LHEInit) (evs : List LHEEvent)
    (err : DecodeError) (rest : List (Except DecodeError LHEEvent)) :
    (lhefix_generator (evs.map Except.ok ++ Except.error err :: rest)).1 = evs ∧
    (lhefix_generator (evs.map Except.ok ++ Except.error err :: rest)).2.1 =
      evs.length ∧
    (lhefix_generator (evs.map Except.ok ++ Except.error err :: rest)).2.2 =
      true ∧
    fix_file_output init (evs.map Except.ok ++ Except.error err :: rest) =
      LHEToken.headerTok init :: evs.map LHEToken.eventTok ++
        [LHEToken.closingTok] := by
  rw [show fix_file_output init (evs.map Except.ok ++ Except.error err :: rest)
      = writeLHE init (lhefix_generator
          (evs.map Except.ok ++ Except.error err :: rest)).1 from rfl]
  rw [lhefix_generator_truncated evs err rest]
  exact ⟨rfl, rfl, rfl, rfl⟩

/-! ### The file-replace path of `fix_file`

`fix_file` with a filepath computes `output_path` (the file itself, or
`parent / (stem + suffix)` — in either case inside `filepath.parent`), calls
`tempfile.mkstemp(dir=filepath_obj.parent)`, chmods the temporary file to
`os.stat(filepath).st_mode`, writes the whole stream to the temporary file
with `tofile`, and finally `os.replace`s it over `output_path`; the
`except` branch unlinks the temporary file and leaves the destination
alone. -/

structure PyPath where
  parent : String
  stem : String
  suffixStr : String
deriving DecidableEq

/-- The `output_path` computation of `fix_file` (lines 46-53): the input
path itself when no suffix is given, else `parent / (stem + suffix)`. -/
def fix_output_path (filepath : PyPath) (suffix : Option String) : PyPath :=
  match suffix with
  | none => filepath
  | some s => { parent := filepath.parent, stem := filepath.stem, suffixStr := s }

structure FSFile where
  mode : Nat
  content : List LHEToken
deriving DecidableEq

/-- Filesystem state restricted to the two files `fix_file` touches: the
destination path and the `mkstemp` temporary. -/
structure FSState where
  dest : Option FSFile
  temp : Option FSFile
deriving DecidableEq

inductive FileOp where
  | mkstempOp (dir : String) (mode : Nat)
  | chmodTempOp (mode : Nat)
  | writeTempOp (content : List LHEToken)
  | replaceOp
  | unlinkTempOp
deriving DecidableEq

def runOp (s : FSState) : FileOp → FSState
  | .mkstempOp _ m => { s with temp := some { mode := m, content := [] } }
  | .chmodTempOp m => { s with temp := s.temp.map (fun f => { f with mode := m }) }
  | .writeTempOp c => { s with temp := s.temp.map (fun f => { f with content := c }) }
  | .replaceOp => { dest := s.temp, temp := none }
  | .unlinkTempOp => { s with temp := none }

def runOps (s : FSState) (ops : List FileOp) : FSState := ops.foldl runOp s

/-- Outcome of the `tofile` call on the temporary file: either the whole
stream was serialized, or an I/O failure occurred after writing a portion
of it. -/
inductive WriteOutcome where
  | success (content : List LHEToken)
  | failure (written : List LHEToken)
deriving DecidableEq

/-- The filesystem trace of the file-replace path of `fix_file` (lines
83-110): `mkstemp` in `filepath.parent` (default mode `0o600`), `chmod` to
the original file's mode, the `tofile` write, then either the atomic
`os.replace` over the destination (success) or `os.unlink` of the
temporary file (the `except` branch). -/
def fix_file_ops (filepath : PyPath) (srcMode : Nat) (w : WriteOutcome) :
    List FileOp :=
  [FileOp.mkstempOp filepath.parent 384, FileOp.chmodTempOp srcMode] ++
    match w with
    | .success c => [FileOp.writeTempOp c, FileOp.replaceOp]
    | .failure c => [FileOp.writeTempOp c, FileOp.unlinkTempOp]

/-- C2: in the file-replace path of `fix_file`, the temporary file is
created in the destination's own directory and chmodded to the original
file's mode; on success the destination carries exactly the fully-written
content with those permission bits and the temporary file is gone; on a
failure during writing the temporary file is deleted and the pre-existing
destination is unchanged; and the destination is untouched by every part of
the trace that precedes the atomic `replace`. -/
theorem fix_file_atomic_replace (filepath : PyPath) (suffix : Option String)
    (srcMode : Nat) (fs0 : FSState) (c : List LHEToken) (w : WriteOutcome)
    (k : Nat)
    (hk : FileOp.replaceOp ∉ (fix_file_ops filepath srcMode w).take k) :
    (fix_output_path filepath suffix).parent = filepath.parent ∧
    runOps fs0 (fix_file_ops filepath srcMode (.success c)) =
      { dest := some { mode := srcMode, content := c }, temp := none } ∧
    runOps fs0 (fix_file_ops filepath srcMode (.failure c)) =
      { dest := fs0.dest, temp := none } ∧
    (runOps fs0 ((fix_file_ops filepath srcMode w).take k)).dest = fs0.dest := by
  refine ⟨?_, ?_, ?_, ?_⟩
  · cases suffix <;> rfl
  · simp [runOps, fix_file_ops, runOp]
  · simp [runOps, fix_file_ops, runOp]
  · cases w with
    | success cw =>
      match k with
      | 0 => rfl
      | 1 => rfl
      | 2 => rfl
      | 3 => rfl
      | (n + 4) =>
        exfalso
        apply hk
        have hlen : (fix_file_ops filepath srcMode (.success cw)).length ≤ n + 4 := by
          simp [fix_file_ops]
        rw [List.take_of_length_le hlen]
        simp [fix_file_ops]
    | failure cw =>
      match k with
      | 0 => rfl
      | 1 => rfl
      | 2 => rfl
      | 3 => rfl
      | (n + 4) =>
        have hlen : (fix_file_ops filepath srcMode (.failure cw)).length ≤ n + 4 := by
          simp [fix_file_ops]
        rw [List.take_of_length_le hlen]
        simp [runOps, fix_file_ops, runOp]

/-- Witness for `fix_file_atomic_replace`: a concrete path, mode, initial
filesystem and trace position strictly before the replace step. -/
theorem fix_file_atomic_replace_witness :
    (fix_output_path { parent := "d", stem := "f", suffixStr := ".lhe" }
        (some ".fix.lhe.gz")).parent = "d" ∧
    runOps { dest := none, temp := none }
        (fix_file_ops { parent := "d", stem := "f", suffixStr := ".lhe" } 420
          (.success [LHEToken.closingTok])) =
      { dest := some { mode := 420, content := [LHEToken.closingTok] },
        temp := none } ∧
    runOps { dest := none, temp := none }
        (fix_file_ops { parent := "d", stem := "f", suffixStr := ".lhe" } 420
          (.failure [LHEToken.closingTok])) =
      { dest := none, temp := none } ∧
    (runOps { dest := none, temp := none }
        ((fix_file_ops { parent := "d", stem := "f", suffixStr := ".lhe" } 420
            (.success [LHEToken.closingTok])).take 3)).dest = none :=
  fix_file_atomic_replace { parent := "d", stem := "f", suffixStr := ".lhe" }
    (some ".fix.lhe.gz") 420 { dest := none, temp := none }
    [LHEToken.closingTok] (.success [LHEToken.closingTok]) 3 (by decide)

/-! ## `lhemerge` (src/lheutils/cli/lhemerge.py)

`merge_lhe_files` reads all sources, collects their `init` sections,
rejects the batch when `check_init_compatibility` fails — before the merged
event generator is even constructed, so no event is consumed and nothing is
written — and otherwise writes the first header followed by every source's
events in input order.  Each source is modelled as its header paired with
its (finite) event stream. -/

inductive MergeError where
  | incompatibleHeaders
  | noInput
deriving DecidableEq

/-- `check_init_compatibility` (lines 21-36): `True` for fewer than two
sections, otherwise a deep structural comparison of every section against
the first. -/
def check_init_compatibility (init_files : List LHEInit) : Bool :=
  if init_files.length < 2 then true
  else
    match init_files with
    | [] => true
    | reference_init :: rest => rest.all (fun i => decide (reference_init = i))

/-- `merge_lhe_files` (lines 39-102) restricted to its data flow: fail on
incompatible headers; otherwise return the first header and the
concatenation of all event streams in input-list order (an empty input list
would crash on `lhefiles[0]`, modelled as `noInput`). -/
def merge_lhe_files (sources : List (LHEInit × List LHEEvent)) :
    Except MergeError (LHEInit × List LHEEvent) :=
  match sources with
  | [] => .error .noInput
  | (i0, evs0) :: rest =>
    if check_init_compatibility (i0 :: rest.map (fun p => p.1)) then
      .ok (i0, evs0 ++ (rest.map (fun p => p.2)).flatten)
    else
      .error .incompatibleHeaders

/-- Bytes written by `merge_lhe_files`: nothing at all on failure (the
error return precedes any write), the serialized merged file on success. -/
def merge_output (sources : List (LHEInit × List LHEEvent)) : List LHEToken :=
  match merge_lhe_files sources with
  | .ok (i, evs) => writeLHE i evs
  | .error _ => []

/-- C6: whenever some source's header differs structurally from the first
(no matter what any source's event stream contains, so no event needs to be
consumed to reach the failure), `merge_lhe_files` fails with
`incompatibleHeaders` and produces zero output bytes. -/
theorem merge_incompatible_headers (i0 : LHEInit) (evs0 : List LHEEvent)
    (rest : List (LHEInit × List LHEEvent))
    (h : ∃ p ∈ rest, p.1 ≠ i0) :
    merge_lhe_files ((i0, evs0) :: rest) = .error .incompatibleHeaders ∧
      merge_output ((i0, evs0) :: rest) = [] := by
  obtain ⟨p, hp, hne⟩ := h
  have hrest : rest ≠ [] := by
    intro hnil
    rw [hnil] at hp
    exact absurd hp (List.not_mem_nil p)
  have hlen : ¬ (i0 :: rest.map (fun p => p.1)).length < 2 := by
    have : 0 < rest.length := List.length_pos.mpr hrest
    simp only [List.length_cons, List.length_map]
    omega
  have hcheck : check_init_compatibility (i0 :: rest.map (fun p => p.1)) = false := by
    rw [check_init_compatibility, if_neg hlen]
    rw [List.all_eq_false]
    refine ⟨p.1, List.mem_map_of_mem (fun p => p.1) hp, ?_⟩
    simp [Ne.symm hne]
  constructor
  · rw [merge_lhe_files, hcheck]
    rfl
  · rw [merge_output, merge_lhe_files, hcheck]
    rfl

/-- A concrete init header with a chosen `beamA`, used by witnesses. -/
def mkInit (a : Int) : LHEInit :=
  { initInfo :=
      { beamA := a, beamB := 2212, energyA := 6500, energyB := 6500,
        PDFsetA := 0, PDFsetB := 0 },
    procInfo := [],
    weightgroup := [] }

/-- Witness for `merge_incompatible_headers`: two sources whose headers
differ in exactly one field (`beamA`), each with a nonempty event list. -/
theorem merge_incompatible_headers_witness :
    merge_lhe_files [(mkInit 2212, [mkEvent 1]), (mkInit 11, [mkEvent 2])] =
      .error .incompatibleHeaders ∧
    merge_output [(mkInit 2212, [mkEvent 1]), (mkInit 11, [mkEvent 2])] = [] :=
  merge_incompatible_headers (mkInit 2212) [mkEvent 1]
    [(mkInit 11, [mkEvent 2])]
    ⟨(mkInit 11, [mkEvent 2]), by decide, by decide⟩

/-- C7: when every source's header equals the first one, the merge succeeds
and its event stream is the concatenation of the sources' event streams in
input-list order, each source exhausted fully before the next begins. -/
theorem merge_event_order (i0 : LHEInit) (evs0 : List LHEEvent)
    (rest : List (LHEInit × List LHEEvent))
    (h : ∀ p ∈ rest, p.1 = i0) :
    merge_lhe_files ((i0, evs0) :: rest) =
      .ok (i0, evs0 ++ (rest.map (fun p => p.2)).flatten) := by
  have hcheck : check_init_compatibility (i0 :: rest.map (fun p => p.1)) = true := by
    rw [check_init_compatibility]
    by_cases hlen : (i0 :: rest.map (fun p => p.1)).length < 2
    · rw [if_pos hlen]
    · rw [if_neg hlen, List.all_eq_true]
      intro x hx
      obtain ⟨p, hp, hpx⟩ := List.mem_map.mp hx
      rw [← hpx, h p hp]
      simp
  rw [merge_lhe_files, hcheck]
  rfl

/-- Witness for `merge_event_order`: merging streams `[e1, e2]` and `[e3]`
under a common header yields exactly `[e1, e2, e3]`. -/
theorem merge_event_order_witness :
    merge_lhe_files [(mkInit 2212, [mkEvent 1, mkEvent 2]),
        (mkInit 2212, [mkEvent 3])] =
      .ok (mkInit 2212, [mkEvent 1, mkEvent 2, mkEvent 3]) := by
  have h := merge_event_order (mkInit 2212) [mkEvent 1, mkEvent 2]
    [(mkInit 2212, [mkEvent 3])] (by decide)
  simpa using h

/-! ## `lhe2lhe.convert_lhe_file` (src/lheutils/cli/lhe2lhe.py, lines 24-149)

The header transforms (`--add-initrwgt`, `--append-lhe-weight`,
`--only-weight-id`) mutate `lhefile.init.weightgroup` before the event
generator runs; the generator then rewrites each event.  Python dicts
become association lists; `d[k] = v` updates in place when the key exists
and appends otherwise. -/

/-- Python `event.weights[weight_id] = v` on an insertion-ordered dict. -/
def dictSet (d : List (String × Int)) (k : String) (v : Int) :
    List (String × Int) :=
  if (d.lookup k).isSome then
    d.map (fun p => if p.1 = k then (k, v) else p)
  else d ++ [(k, v)]

/-- Test `weight_id in wg.weights` over all groups of the table. -/
def hasWeightId (wgs : WeightTable) (wid : String) : Bool :=
  wgs.any (fun p => (p.2.weights.lookup wid).isSome)

/-- The `if group_name not in ...: create weight group` step (lines 60-64 /
80-84): appends an empty group when absent. -/
def ensureGroup (wgs : WeightTable) (g : String) : WeightTable :=
  if (wgs.lookup g).isSome then wgs else wgs ++ [(g, { name := g, weights := [] })]

/-- The `if weight_id not in ...weights: ... = LHEWeightInfo(...)` step:
appends the definition to the named group when the id is absent there. -/
def insertWeight (wgs : WeightTable) (g wid : String) (wi : LHEWeightInfo) :
    WeightTable :=
  wgs.map (fun p =>
    if p.1 = g then
      (p.1, { p.2 with weights :=
        if (p.2.weights.lookup wid).isSome then p.2.weights
        else p.2.weights ++ [(wid, wi)] })
    else p)

/-- Modelled from the spec: `get_max_weight_index` is imported from
`lheutils.cli.util`, but its definition is not among the sources (the
`util.py` provided holds only `dataclass_with_properties_to_dict`).  Per the
spec, `currentMaxIndex` is computed by scanning all existing weight indices
in the header at call time; an empty table gives 0 so that the first
assigned index is the positive integer 1. -/
def get_max_weight_index (wgs : WeightTable) : Int :=
  ((wgs.map (fun p => p.2.weights.map (fun q => q.2.index))).flatten).foldl max 0

/-- The `for group_name, weight_id, weight_text in add_initrwgt` loop
(lines 53-70).  `index` is the value computed once before the loop; every
entry of the list is inserted with the same `index + 1`. -/
def add_initrwgt_loop (index : Int) :
    List (String × String × String) → WeightTable → Except String WeightTable
  | [], wgs => .ok wgs
  | (g, wid, wtext) :: rest, wgs =>
    if hasWeightId wgs wid then .error wid
    else
      add_initrwgt_loop index rest
        (insertWeight (ensureGroup wgs g) g wid
          { name := wtext, id := wid, index := index + 1 })

/-- The `--add-initrwgt` path (lines 51-70): `index =
get_max_weight_index(lhefile.init)` once, then the loop above. -/
def add_initrwgt_apply (entries : List (String × String × String))
    (wgs : WeightTable) : Except String WeightTable :=
  add_initrwgt_loop (get_max_weight_index wgs) entries wgs

/-- The `--append-lhe-weight` header path (lines 71-90): recomputes the max
index, rejects an id already present in any group, then inserts. -/
def append_lhe_weight_apply (g wid wtext : String) (wgs : WeightTable) :
    Except String WeightTable :=
  let index := get_max_weight_index wgs
  if hasWeightId wgs wid then .error wid
  else .ok (insertWeight (ensureGroup wgs g) g wid
    { name := wtext, id := wid, index := index + 1 })

/-- The `--only-weight-id` header path (lines 91-103): every group keeps
only the selected id's definition (else is emptied), then groups with no
weights left are removed.  There is no error branch. -/
def only_weight_id_apply (wid : String) (wgs : WeightTable) : WeightTable :=
  (wgs.map (fun p =>
    (p.1, { p.2 with weights :=
      match p.2.weights.lookup wid with
      | some wi => [(wid, wi)]
      | none => ([] : List (String × LHEWeightInfo)) })))
    |>.filter (fun p => decide (p.2.weights.length > 0))

/-- The event generator of `convert_lhe_file` (lines 106-120): optionally
copies the central weight into the weight mapping under the appended id;
under `--only-weight-id` it promotes that weight to the central weight and
clears the mapping, or skips the event entirely when the id is absent. -/
def lhe2lhe_generator (append_lhe_weight : Option (String × String × String))
    (only_weight_id : Option String) : List LHEEvent → List LHEEvent
  | [] => []
  | e :: rest =>
    let e1 := match append_lhe_weight with
      | some (_g, wid, _t) =>
        { e with weights := dictSet e.weights wid e.eventinfo.weight }
      | none => e
    match only_weight_id with
    | some wid =>
      match e1.weights.lookup wid with
      | some v =>
        { e1 with eventinfo := { e1.eventinfo with weight := v }, weights := [] }
          :: lhe2lhe_generator append_lhe_weight only_weight_id rest
      | none => lhe2lhe_generator append_lhe_weight only_weight_id rest
    | none => e1 :: lhe2lhe_generator append_lhe_weight only_weight_id rest

/-- The data flow of `convert_lhe_file` for the transform options: header
transforms in source order (`--add-initrwgt`, then `--append-lhe-weight`,
then `--only-weight-id`), then the rewritten event stream; the first two
may fail on a duplicate weight id, `--only-weight-id` never fails. -/
def convert_lhe_file (wgs : WeightTable) (evs : List LHEEvent)
    (append_lhe_weight : Option (String × String × String))
    (only_weight_id : Option String)
    (add_initrwgt : Option (List (String × String × String))) :
    Except String (WeightTable × List LHEEvent) := do
  let wgs1 ← match add_initrwgt with
    | some entries => add_initrwgt_apply entries wgs
    | none => Except.ok wgs
  let wgs2 ← match append_lhe_weight with
    | some (g, wid, t) => append_lhe_weight_apply g wid t wgs1
    | none => Except.ok wgs1
  let wgs3 := match only_weight_id with
    | some wid => only_weight_id_apply wid wgs2
    | none => wgs2
  Except.ok (wgs3, lhe2lhe_generator append_lhe_weight only_weight_id evs)

/-- All weight indices of the header, in table order. -/
def headerIndices (wgs : WeightTable) : List Int :=
  (wgs.map (fun p => p.2.weights.map (fun q => q.2.index))).flatten

/-- C4 (code bug): two successful `--add-initrwgt` insertions into an empty
header both receive index `1`, because `index = get_max_weight_index(...)`
is computed once before the loop and every entry is inserted with the same
`index + 1`; the resulting indices `[1, 1]` are neither distinct nor equal
to the recomputed prior-max-plus-one demanded by the claim (the second
insertion would then have index 2). -/
theorem add_initrwgt_duplicate_index :
    add_initrwgt_apply [("g", "w1", "ta"), ("g", "w2", "tb")] [] =
      .ok [("g", { name := "g", weights :=
        [("w1", { name := "ta", id := "w1", index := 1 }),
         ("w2", { name := "tb", id := "w2", index := 1 })] })] ∧
    headerIndices [("g", { name := "g", weights :=
        [("w1", { name := "ta", id := "w1", index := 1 }),
         ("w2", { name := "tb", id := "w2", index := 1 })] })] = [1, 1] ∧
    ¬ ([1, 1] : List Int).Nodup := by
  refine ⟨rfl, rfl, by decide⟩

/-- Defined from the spec's words, for comparison with the code:
`restrictTo(weightId)` fails with `WeightIdNotFound` when the id is absent
from every group, and otherwise performs the keep-only-and-prune
transformation. -/
def restrictTo_spec (wid : String) (wgs : WeightTable) :
    Except String WeightTable :=
  if hasWeightId wgs wid then .ok (only_weight_id_apply wid wgs)
  else .error "WeightIdNotFound"

/-- C5 counterexample: for a header whose only group holds only the weight
id `a`, running the `--only-weight-id b` path succeeds with an emptied
weight table (and an empty event stream), while the claim demands a
`WeightIdNotFound` failure — as the spec-derived `restrictTo_spec` would
produce.  The code path has no failure branch at all. -/
theorem restrictTo_no_failure_cex :
    convert_lhe_file
        [("g", { name := "g", weights :=
          [("a", { name := "ta", id := "a", index := 1 })] })]
        [] none (some "b") none = .ok ([], []) ∧
    restrictTo_spec "b"
        [("g", { name := "g", weights :=
          [("a", { name := "ta", id := "a", index := 1 })] })] =
      .error "WeightIdNotFound" := by
  exact ⟨rfl, rfl⟩

theorem only_weight_id_apply_filterMap (wid : String) (wgs : WeightTable) :
    only_weight_id_apply wid wgs =
      wgs.filterMap (fun p => (p.2.weights.lookup wid).map
        (fun wi => (p.1, { name := p.2.name, weights := [(wid, wi)] }))) := by
  induction wgs with
  | nil => rfl
  | cons p rest ih =>
    rw [only_weight_id_apply] at ih ⊢
    cases hlk : p.2.weights.lookup wid with
    | some wi => simp [hlk, ih]
    | none => simp [hlk, ih]

/-- C5 (amended): the `--only-weight-id` path never fails.  It keeps, in
every group, only the selected id's weight definition, removes every group
that lacks the id (in particular the whole table empties when the id is
absent everywhere), preserves the order of the surviving groups, and the
conversion succeeds with the restricted event stream. -/
theorem only_weight_id_restrict (wid : String) (wgs : WeightTable)
    (evs : List LHEEvent) :
    convert_lhe_file wgs evs none (some wid) none =
      .ok (wgs.filterMap (fun p => (p.2.weights.lookup wid).map
            (fun wi => (p.1, { name := p.2.name, weights := [(wid, wi)] }))),
           lhe2lhe_generator none (some wid) evs) := by
  rw [show convert_lhe_file wgs evs none (some wid) none =
      Except.ok (only_weight_id_apply wid wgs,
        lhe2lhe_generator none (some wid) evs) from rfl]
  rw [only_weight_id_apply_filterMap]

/-- C8: under the restrict-to-weight policy of the `lhe2lhe` generator,
every event whose weight mapping contains the target id is kept (in order)
with its central weight replaced by that value, every event lacking the id
is dropped, and the stream length decreases by exactly the number of events
lacking the id. -/
theorem restrict_stream_drop (wid : String) (evs : List LHEEvent) :
    lhe2lhe_generator none (some wid) evs =
      evs.filterMap (fun e => (e.weights.lookup wid).map (fun v =>
        { e with eventinfo := { e.eventinfo with weight := v },
                 weights := [] })) ∧
    (lhe2lhe_generator none (some wid) evs).length =
      evs.length - evs.countP (fun e => (e.weights.lookup wid).isNone) := by
  have hmain : lhe2lhe_generator none (some wid) evs =
      evs.filterMap (fun e => (e.weights.lookup wid).map (fun v =>
        { e with eventinfo := { e.eventinfo with weight := v },
                 weights := [] })) := by
    induction evs with
    | nil => rfl
    | cons e rest ih =>
      cases hlk : e.weights.lookup wid with
      | some v => simp [lhe2lhe_generator, hlk, ih]
      | none => simp [lhe2lhe_generator, hlk, ih]
  refine ⟨hmain, ?_⟩
  clear hmain
  induction evs with
  | nil => rfl
  | cons e rest ih =>
    have hle : rest.countP (fun e => (e.weights.lookup wid).isNone) ≤
        rest.length := List.countP_le_length _
    cases hlk : e.weights.lookup wid with
    | some v =>
      simp only [lhe2lhe_generator, hlk, List.length_cons, List.countP_cons]
      rw [ih]
      simp [hlk]
      omega
    | none =>
      simp only [lhe2lhe_generator, hlk, List.length_cons, List.countP_cons]
      rw [ih]
      simp [hlk]

/-! ## `lheinfo` summaries (src/lheutils/cli/lheinfo.py)

`merge_channels` (lines 33-49) folds a list of channels into a Python dict
keyed by the sorted PDG-id lists; a missing key inserts a fresh
zero-counter channel carrying the representative's id lists (so dict
insertion order and the representative follow the first occurrence), and
the counters are then added.  `LHEAccumulatedInfo.__add__` (lines 68-76)
adds the totals and merges the concatenated channel lists.  Python
dataclass equality compares all fields, including the channel *list* in
order, which is what the monoid laws of the claim quantify over. -/

structure LHEChannel where
  incoming_pdgid : List Int
  outgoing_pdgid : List Int
  num_events : Int
  num_negative_events : Int
deriving DecidableEq

abbrev ChKey := List Int × List Int

/-- The dict key of `merge_channels`: both PDG-id lists sorted. -/
def chKey (c : LHEChannel) : ChKey :=
  (List.insertionSort (fun a b => a ≤ b) c.incoming_pdgid,
   List.insertionSort (fun a b => a ≤ b) c.outgoing_pdgid)

/-- The two `+=` statements of `merge_channels`. -/
def addCounts (e c : LHEChannel) : LHEChannel :=
  { e with
    num_events := e.num_events + c.num_events,
    num_negative_events := e.num_negative_events + c.num_negative_events }

/-- One iteration of the `for channel in channels` loop: insert a fresh
zero-counter channel when the key is new (at the end, as Python dicts do),
then add the counters in place. -/
def upsertChannel : List (ChKey × LHEChannel) → LHEChannel →
    List (ChKey × LHEChannel)
  | [], c =>
    [(chKey c,
      addCounts
        { incoming_pdgid := c.incoming_pdgid,
          outgoing_pdgid := c.outgoing_pdgid,
          num_events := 0, num_negative_events := 0 } c)]
  | (k, e) :: rest, c =>
    if chKey c = k then (k, addCounts e c) :: rest
    else (k, e) :: upsertChannel rest c

def merge_channels (channels : List LHEChannel) : List LHEChannel :=
  (channels.foldl upsertChannel []).map (fun p => p.2)

structure LHEAccumulatedInfo where
  total_events : Int
  total_negative_weighted_events : Int
  total_channels : List LHEChannel
deriving DecidableEq

/-- `LHEAccumulatedInfo.__add__`. -/
def LHEAccumulatedInfo.add (a b : LHEAccumulatedInfo) : LHEAccumulatedInfo :=
  { total_events := a.total_events + b.total_events,
    total_negative_weighted_events :=
      a.total_negative_weighted_events + b.total_negative_weighted_events,
    total_channels := merge_channels (a.total_channels ++ b.total_channels) }

/-- The zero Summary: zero totals, empty channel list (the accumulator
`get_lhesummary` starts from). -/
def LHEAccumulatedInfo.zero : LHEAccumulatedInfo :=
  { total_events := 0, total_negative_weighted_events := 0,
    total_channels := [] }

/-! Auxiliary notions for reasoning about the dict fold. -/

/-- Add counters onto the (first) entry stored at key `k`. -/
def bump (n nn : Int) (e : LHEChannel) : LHEChannel :=
  { e with
    num_events := e.num_events + n,
    num_negative_events := e.num_negative_events + nn }

def addAt (k : ChKey) (n nn : Int) :
    List (ChKey × LHEChannel) → List (ChKey × LHEChannel)
  | [] => []
  | (k', e) :: rest =>
    if k = k' then (k', bump n nn e) :: rest
    else (k', e) :: addAt k n nn rest

def tblKeys (B : List (ChKey × LHEChannel)) : List ChKey :=
  B.map (fun p => p.1)

def tblVals (B : List (ChKey × LHEChannel)) : List LHEChannel :=
  B.map (fun p => p.2)

/-- Tables reachable by the fold store each channel under its own key. -/
def WFTable (B : List (ChKey × LHEChannel)) : Prop :=
  ∀ p ∈ B, chKey p.2 = p.1

theorem chKey_addCounts (e c : LHEChannel) : chKey (addCounts e c) = chKey e := rfl

theorem chKey_bump (n nn : Int) (e : LHEChannel) : chKey (bump n nn e) = chKey e := rfl

theorem addCounts_eq_bump (e c : LHEChannel) :
    addCounts e c = bump c.num_events c.num_negative_events e := rfl

theorem upsertChannel_nil (c : LHEChannel) :
    upsertChannel [] c = [(chKey c, c)] := by
  cases c
  simp [upsertChannel, addCounts]

theorem WFTable_nil : WFTable [] := by
  intro p hp
  exact absurd hp (List.not_mem_nil p)

theorem WFTable_upsert (B : List (ChKey × LHEChannel)) (c : LHEChannel)
    (h : WFTable B) : WFTable (upsertChannel B c) := by
  induction B with
  | nil =>
    rw [upsertChannel_nil]
    intro p hp
    rw [List.mem_singleton] at hp
    rw [hp]
  | cons q rest ih =>
    obtain ⟨k, e⟩ := q
    have hke : chKey e = k := h (k, e) (List.mem_cons_self _ _)
    have hrest : WFTable rest := fun p hp => h p (List.mem_cons_of_mem _ hp)
    by_cases hc : chKey c = k
    · rw [upsertChannel, if_pos hc]
      intro p hp
      rcases List.mem_cons.mp hp with h1 | h2
      · rw [h1]
        rw [show ((k, addCounts e c) : ChKey × LHEChannel).2 = addCounts e c from rfl,
          chKey_addCounts, hke]
      · exact hrest p h2
    · rw [upsertChannel, if_neg hc]
      intro p hp
      rcases List.mem_cons.mp hp with h1 | h2
      · rw [h1]; exact hke
      · exact ih hrest p h2

theorem key_mem_upsert (B : List (ChKey × LHEChannel)) (c : LHEChannel) :
    chKey c ∈ tblKeys (upsertChannel B c) := by
  induction B with
  | nil => rw [upsertChannel_nil]; exact List.mem_singleton.mpr rfl
  | cons q rest ih =>
    obtain ⟨k, e⟩ := q
    by_cases hc : chKey c = k
    · rw [upsertChannel, if_pos hc, tblKeys, List.map_cons]
      exact hc ▸ List.mem_cons_self _ _
    · rw [upsertChannel, if_neg hc, tblKeys, List.map_cons]
      exact List.mem_cons_of_mem _ ih

theorem keys_mono_upsert (B : List (ChKey × LHEChannel)) (c : LHEChannel)
    (k : ChKey) (h : k ∈ tblKeys B) : k ∈ tblKeys (upsertChannel B c) := by
  induction B with
  | nil => exact absurd h (List.not_mem_nil k)
  | cons q rest ih =>
    obtain ⟨k', e⟩ := q
    rw [tblKeys, List.map_cons, List.mem_cons] at h
    by_cases hc : chKey c = k'
    · rw [upsertChannel, if_pos hc, tblKeys, List.map_cons]
      rcases h with h1 | h2
      · exact List.mem_cons.mpr (Or.inl h1)
      · exact List.mem_cons_of_mem _ h2
    · rw [upsertChannel, if_neg hc, tblKeys, List.map_cons]
      rcases h with h1 | h2
      · exact List.mem_cons.mpr (Or.inl h1)
      · exact List.mem_cons_of_mem _ (ih h2)

theorem keys_mono_fold (L : List LHEChannel) :
    ∀ (B : List (ChKey × LHEChannel)) (k : ChKey), k ∈ tblKeys B →
      k ∈ tblKeys (List.foldl upsertChannel B L) := by
  induction L with
  | nil => intro B k h; exact h
  | cons c L' ih =>
    intro B k h
    rw [List.foldl_cons]
    exact ih (upsertChannel B c) k (keys_mono_upsert B c k h)

theorem WFTable_fold (L : List LHEChannel) :
    ∀ (B : List (ChKey × LHEChannel)), WFTable B →
      WFTable (List.foldl upsertChannel B L) := by
  induction L with
  | nil => intro B h; exact h
  | cons c L' ih =>
    intro B h
    rw [List.foldl_cons]
    exact ih (upsertChannel B c) (WFTable_upsert B c h)

theorem addCounts_bump_comm (n nn : Int) (e c : LHEChannel) :
    addCounts (bump n nn e) c = bump n nn (addCounts e c) := by
  cases e
  simp [addCounts, bump]
  omega

theorem upsert_eq_addAt (B : List (ChKey × LHEChannel)) (c : LHEChannel)
    (k : ChKey) (hc : chKey c = k) (hmem : k ∈ tblKeys B) :
    upsertChannel B c = addAt k c.num_events c.num_negative_events B := by
  induction B with
  | nil => exact absurd hmem (List.not_mem_nil k)
  | cons q rest ih =>
    obtain ⟨k', e⟩ := q
    by_cases hk : chKey c = k'
    · rw [upsertChannel, if_pos hk, addAt, if_pos (hc ▸ hk.symm ▸ rfl : k = k'),
        addCounts_eq_bump]
    · have hkk : k ≠ k' := fun h => hk (hc.trans h)
      have hmem2 : k ∈ tblKeys rest := by
        rw [tblKeys, List.map_cons, List.mem_cons] at hmem
        rcases hmem with h1 | h2
        · exact absurd h1 hkk
        · exact h2
      rw [upsertChannel, if_neg hk, addAt, if_neg hkk, ih hmem2]

theorem upsert_addAt_comm (B : List (ChKey × LHEChannel)) (c : LHEChannel)
    (k : ChKey) (n nn : Int) (hmem : k ∈ tblKeys B) :
    upsertChannel (addAt k n nn B) c =
      addAt k n nn (upsertChannel B c) := by
  induction B with
  | nil => exact absurd hmem (List.not_mem_nil k)
  | cons q rest ih =>
    obtain ⟨k', e⟩ := q
    by_cases hk : k = k'
    · rw [addAt, if_pos hk]
      by_cases hc : chKey c = k'
      · rw [upsertChannel, if_pos hc, upsertChannel, if_pos hc, addAt,
          if_pos hk, addCounts_bump_comm]
      · rw [upsertChannel, if_neg hc, upsertChannel, if_neg hc, addAt, if_pos hk]
    · rw [addAt, if_neg hk]
      have hmem2 : k ∈ tblKeys rest := by
        rw [tblKeys, List.map_cons, List.mem_cons] at hmem
        rcases hmem with h1 | h2
        · exact absurd h1 hk
        · exact h2
      by_cases hc : chKey c = k'
      · rw [upsertChannel, if_pos hc, upsertChannel, if_pos hc, addAt, if_neg hk]
      · rw [upsertChannel, if_neg hc, upsertChannel, if_neg hc, addAt,
          if_neg hk, ih hmem2]

theorem foldl_addAt_comm (L : List LHEChannel) :
    ∀ (B : List (ChKey × LHEChannel)) (k : ChKey) (n nn : Int),
      k ∈ tblKeys B →
      List.foldl upsertChannel (addAt k n nn B) L =
        addAt k n nn (List.foldl upsertChannel B L) := by
  induction L with
  | nil => intro B k n nn _; rfl
  | cons c L' ih =>
    intro B k n nn hmem
    rw [List.foldl_cons, List.foldl_cons, upsert_addAt_comm B c k n nn hmem,
      ih (upsertChannel B c) k n nn (keys_mono_upsert B c k hmem)]

theorem upsert_combine (B : List (ChKey × LHEChannel)) (e c : LHEChannel) :
    upsertChannel B (addCounts e c) =
      addAt (chKey e) c.num_events c.num_negative_events (upsertChannel B e) := by
  induction B with
  | nil =>
    rw [upsertChannel_nil, upsertChannel_nil, chKey_addCounts, addAt,
      if_pos rfl, addCounts_eq_bump]
  | cons q rest ih =>
    obtain ⟨k', e₀⟩ := q
    by_cases hk : chKey e = k'
    · have hk2 : chKey (addCounts e c) = k' := (chKey_addCounts e c).trans hk
      rw [upsertChannel, if_pos hk2, upsertChannel, if_pos hk, addAt, if_pos hk]
      have hfold : addCounts e₀ (addCounts e c) =
          bump c.num_events c.num_negative_events (addCounts e₀ e) := by
        cases e₀
        simp [addCounts, bump]
        omega
      rw [hfold]
    · have hk2 : chKey (addCounts e c) ≠ k' := fun hx =>
        hk ((chKey_addCounts e c).symm.trans hx)
      rw [upsertChannel, if_neg hk2, upsertChannel, if_neg hk, addAt,
        if_neg hk, ih]

theorem foldl_vals_upsert (B : List (ChKey × LHEChannel)) (c : LHEChannel)
    (hWF : WFTable B) :
    ∀ A, List.foldl upsertChannel A (tblVals (upsertChannel B c)) =
      upsertChannel (List.foldl upsertChannel A (tblVals B)) c := by
  induction B with
  | nil =>
    intro A
    rw [upsertChannel_nil]
    rfl
  | cons q rest ih =>
    obtain ⟨k, e⟩ := q
    have hke : chKey e = k := hWF (k, e) (List.mem_cons_self _ _)
    have hrest : WFTable rest := fun p hp => hWF p (List.mem_cons_of_mem _ hp)
    intro A
    by_cases hc : chKey c = k
    · rw [upsertChannel, if_pos hc]
      have hmemA : k ∈ tblKeys (upsertChannel A e) :=
        hke ▸ key_mem_upsert A e
      have hstep : tblVals ((k, addCounts e c) :: rest) =
          addCounts e c :: tblVals rest := rfl
      rw [hstep, List.foldl_cons, upsert_combine A e c, hke,
        foldl_addAt_comm (tblVals rest) (upsertChannel A e) k
          c.num_events c.num_negative_events hmemA]
      have hmemF : k ∈ tblKeys
          (List.foldl upsertChannel (upsertChannel A e) (tblVals rest)) :=
        keys_mono_fold (tblVals rest) (upsertChannel A e) k hmemA
      rw [show tblVals ((k, e) :: rest) = e :: tblVals rest from rfl,
        List.foldl_cons,
        upsert_eq_addAt
          (List.foldl upsertChannel (upsertChannel A e) (tblVals rest))
          c k hc hmemF]
    · rw [upsertChannel, if_neg hc,
        show tblVals ((k, e) :: upsertChannel rest c) =
          e :: tblVals (upsertChannel rest c) from rfl,
        List.foldl_cons, ih hrest (upsertChannel A e),
        show tblVals ((k, e) :: rest) = e :: tblVals rest from rfl,
        List.foldl_cons]

theorem foldl_vals_fold (y : List LHEChannel) :
    ∀ (A B : List (ChKey × LHEChannel)), WFTable B →
      List.foldl upsertChannel A (tblVals (List.foldl upsertChannel B y)) =
        List.foldl upsertChannel (List.foldl upsertChannel A (tblVals B)) y := by
  induction y with
  | nil => intro A B _; rfl
  | cons c y' ih =>
    intro A B hWF
    rw [List.foldl_cons, ih A (upsertChannel B c) (WFTable_upsert B c hWF),
      foldl_vals_upsert B c hWF A, List.foldl_cons]

theorem foldl_merge_channels (A : List (ChKey × LHEChannel))
    (y : List LHEChannel) :
    List.foldl upsertChannel A (merge_channels y) =
      List.foldl upsertChannel A y := by
  have h := foldl_vals_fold y A [] WFTable_nil
  exact h

theorem merge_channels_assoc (x y z : List LHEChannel) :
    merge_channels (merge_channels (x ++ y) ++ z) =
      merge_channels (x ++ merge_channels (y ++ z)) := by
  show tblVals (List.foldl upsertChannel [] (merge_channels (x ++ y) ++ z)) =
    tblVals (List.foldl upsertChannel [] (x ++ merge_channels (y ++ z)))
  rw [List.foldl_append, List.foldl_append, foldl_merge_channels,
    foldl_merge_channels, ← List.foldl_append, ← List.foldl_append,
    List.append_assoc]

theorem foldl_keep_head (L : List LHEChannel) :
    ∀ (k : ChKey) (e : LHEChannel) (B : List (ChKey × LHEChannel)),
      (∀ d ∈ L, chKey d ≠ k) →
      List.foldl upsertChannel ((k, e) :: B) L =
        (k, e) :: List.foldl upsertChannel B L := by
  induction L with
  | nil => intro k e B _; rfl
  | cons d L' ih =>
    intro k e B h
    have hd : chKey d ≠ k := h d (List.mem_cons_self _ _)
    rw [List.foldl_cons, upsertChannel, if_neg hd, List.foldl_cons,
      ih k e (upsertChannel B d) (fun x hx => h x (List.mem_cons_of_mem _ hx))]

theorem merge_channels_nodup (cs : List LHEChannel)
    (h : (cs.map chKey).Nodup) : merge_channels cs = cs := by
  induction cs with
  | nil => rfl
  | cons c rest ih =>
    rw [List.map_cons, List.nodup_cons] at h
    obtain ⟨hnot, hrest⟩ := h
    have hne : ∀ d ∈ rest, chKey d ≠ chKey c := by
      intro d hd hdc
      exact hnot (hdc ▸ List.mem_map_of_mem chKey hd)
    show tblVals (List.foldl upsertChannel
      (upsertChannel [] c) rest) = c :: rest
    rw [upsertChannel_nil, foldl_keep_head rest (chKey c) c [] hne]
    show c :: tblVals (List.foldl upsertChannel [] rest) = c :: rest
    rw [show tblVals (List.foldl upsertChannel [] rest) =
      merge_channels rest from rfl, ih hrest]

/-- A concrete channel, used by witnesses and counterexamples. -/
def mkChannel (i o : List Int) (n nn : Int) : LHEChannel :=
  { incoming_pdgid := i, outgoing_pdgid := o,
    num_events := n, num_negative_events := nn }

/-- A concrete summary, used by witnesses and counterexamples. -/
def mkSummary (te nn : Int) (tc : List LHEChannel) : LHEAccumulatedInfo :=
  { total_events := te, total_negative_weighted_events := nn,
    total_channels := tc }

/-- C9 counterexample: summary merge is not commutative — swapping the
arguments reverses the merged channel-list order, and Python dataclass
equality compares the lists in order — and the zero Summary is not an
identity for a Summary whose channel list repeats a key, since merging
collapses the two entries into one with added counters. -/
theorem accumulated_add_not_comm_cex :
    LHEAccumulatedInfo.add (mkSummary 0 0 [mkChannel [1] [2] 1 0])
        (mkSummary 0 0 [mkChannel [3] [4] 1 0]) ≠
      LHEAccumulatedInfo.add (mkSummary 0 0 [mkChannel [3] [4] 1 0])
        (mkSummary 0 0 [mkChannel [1] [2] 1 0]) ∧
    LHEAccumulatedInfo.add
        (mkSummary 2 0 [mkChannel [1] [2] 1 0, mkChannel [1] [2] 1 0])
        LHEAccumulatedInfo.zero ≠
      mkSummary 2 0 [mkChannel [1] [2] 1 0, mkChannel [1] [2] 1 0] := by
  constructor
  · decide
  · decide

/-- C9 (amended): Summary merge is associative for arbitrary Summaries, and
the zero Summary is a right identity for every Summary whose channel list
has pairwise-distinct keys (the normal form produced by `merge_channels`
itself); commutativity holds for the additive totals but not for the merged
Summary as a whole, whose channel-list order and representatives follow the
argument order. -/
theorem accumulated_add_assoc_id (a : LHEAccumulatedInfo)
    (h : (a.total_channels.map chKey).Nodup) :
    (∀ x y z : LHEAccumulatedInfo, x.add (y.add z) = (x.add y).add z) ∧
    a.add LHEAccumulatedInfo.zero = a ∧
    ∀ x y : LHEAccumulatedInfo,
      (x.add y).total_events = (y.add x).total_events ∧
      (x.add y).total_negative_weighted_events =
        (y.add x).total_negative_weighted_events := by
  refine ⟨?_, ?_, ?_⟩
  · intro x y z
    obtain ⟨xte, xnn, xtc⟩ := x
    obtain ⟨yte, ynn, ytc⟩ := y
    obtain ⟨zte, znn, ztc⟩ := z
    simp only [LHEAccumulatedInfo.add, LHEAccumulatedInfo.mk.injEq]
    refine ⟨by ring, by ring, (merge_channels_assoc xtc ytc ztc).symm⟩
  · obtain ⟨ate, ann, atc⟩ := a
    simp only [LHEAccumulatedInfo.add, LHEAccumulatedInfo.zero,
      LHEAccumulatedInfo.mk.injEq]
    refine ⟨by ring, by ring, ?_⟩
    rw [List.append_nil]
    exact merge_channels_nodup atc h
  · intro x y
    constructor
    · simp only [LHEAccumulatedInfo.add]
      ring
    · simp only [LHEAccumulatedInfo.add]
      ring

/-- Concrete summary used by the witness below. -/
def sumA : LHEAccumulatedInfo := mkSummary 1 0 [mkChannel [1] [2] 1 0]

/-- Witness for `accumulated_add_assoc_id` at a concrete Summary with
distinct channel keys. -/
theorem accumulated_add_assoc_id_witness :
    (∀ x y z : LHEAccumulatedInfo, x.add (y.add z) = (x.add y).add z) ∧
    sumA.add LHEAccumulatedInfo.zero = sumA ∧
    ∀ x y : LHEAccumulatedInfo,
      (x.add y).total_events = (y.add x).total_events ∧
      (x.add y).total_negative_weighted_events =
        (y.add x).total_negative_weighted_events :=
  accumulated_add_assoc_id sumA (by decide)
